import Mathlib

/-!
# Verification of the recipe service (src/main.py)

Shallow embedding of the Flask + SQLAlchemy recipe service.  The database
(tables `ingredient` and `recipe`, with the join table folded into each
recipe's list of linked ingredient ids) becomes an explicit state record,
and each HTTP view method becomes a function from the state and the request
data to a response together with the successor state.  Database behaviour
that the source relies on is made explicit: autoincrement primary keys, the
unique constraints on both `name` columns (a violated constraint raises an
`IntegrityError` that no view catches, surfacing as a 500 response, and the
uncommitted session is rolled back at request teardown, so the store is
unchanged), and `one_or_none` lookups.
-/

/-- Row of the `ingredient` table (`class Ingredient`): autoincrement
integer primary key and a name column carrying a unique constraint. -/
structure Ingredient where
  id : Nat
  name : String
deriving DecidableEq, Repr

/-- Row of the `recipe` table (`class Recipe`): autoincrement integer
primary key, unique name, and the ids of the linked ingredients (the rows
of the `ingredient_recipe` join table for this recipe, in link order). -/
structure Recipe where
  id : Nat
  name : String
  ingredientIds : List Nat
deriving DecidableEq, Repr

/-- Element of the `ingredients` array in serialized recipe output:
`ingredients = ma.auto_field(only=("id",))` dumps only the ingredient id,
never its name. -/
structure IngredientOut where
  id : Nat
deriving DecidableEq, Repr

/-- Result of `recipe_schema.dump` / `recipe_schema.jsonify`:
`{id, name, ingredients: [{id}, ...]}`. -/
structure RecipeOut where
  id : Nat
  name : String
  ingredients : List IngredientOut
deriving DecidableEq, Repr

/-- Serialization of a stored recipe through `RecipeSchema`. -/
def RecipeSchema.dump (r : Recipe) : RecipeOut :=
  ⟨r.id, r.name, r.ingredientIds.map IngredientOut.mk⟩

/-- Database state: the two tables and their autoincrement counters.
MySQL autoincrement starts at 1. -/
structure St where
  ingredients : List Ingredient
  recipes : List Recipe
  nextIngredientId : Nat
  nextRecipeId : Nat
deriving DecidableEq, Repr

/-- Empty database produced by `db.create_all`. -/
def St.init : St := ⟨[], [], 1, 1⟩

/-- A request body that deserializes successfully through
`recipe_schema.load`: the recipe name together with the names of the
referenced ingredients (`{name: ..., ingredients: [{name: ...}, ...]}`),
in payload order. -/
structure RecipePayload where
  name : String
  ingredients : List String
deriving DecidableEq, Repr

/-- The request body as the views observe it: absent or falsy JSON
(`if not json_data`), JSON rejected by `recipe_schema.load` with a
`marshmallow.ValidationError`, or a successfully loaded payload. -/
inductive Body where
  | empty
  | invalid
  | valid (p : RecipePayload)
deriving DecidableEq, Repr

/-- Responses of the five view methods.  `serverError` stands for an
unhandled database error escaping the view (an `IntegrityError` from a
violated unique constraint); `notFound` carries the id interpolated into
the `"No recipe with id {id}"` message. -/
inductive Resp where
  | ok (body : RecipeOut)
  | okList (body : List RecipeOut)
  | okMsg (message : String)
  | created (body : RecipeOut)
  | badRequest (error : String)
  | unprocessable
  | notFound (id : Nat)
  | serverError
deriving DecidableEq, Repr

/-- HTTP status code of a response. -/
def Resp.status : Resp → Nat
  | .ok _ => 200
  | .okList _ => 200
  | .okMsg _ => 200
  | .created _ => 201
  | .badRequest _ => 400
  | .unprocessable => 422
  | .notFound _ => 404
  | .serverError => 500

/-- The JSON array carried by a list response (empty for any other response). -/
def Resp.listBody : Resp → List RecipeOut
  | .okList l => l
  | _ => []

/-- Lookup of an ingredient row by name: the query the marshmallow
`Related` field issues for each inbound `{name}` item. -/
def findByName (l : List Ingredient) (n : String) : Option Ingredient :=
  l.find? (fun i => i.name == n)

/-- `db.session.query(Ingredient).filter_by(name=n)` against the state. -/
def findIngredient (st : St) (n : String) : Option Ingredient :=
  findByName st.ingredients n

/-- The payload names whose `Related` lookup found no stored row, in
payload order: `recipe_schema.load` returns a fresh transient `Ingredient`
object for each of these (and the stored row for every other name). -/
def freshNames (st : St) (names : List String) : List String :=
  names.filterMap (fun n =>
    match findIngredient st n with
    | some _ => none
    | none => some n)

/-- Insertion of the transient ingredients, receiving consecutive
autoincrement ids. -/
def mkNews : Nat → List String → List Ingredient
  | _, [] => []
  | next, n :: rest => ⟨next, n⟩ :: mkNews (next + 1) rest

/-- Combined effect of `recipe_schema.load(json_data, session=db.session)`
on the `ingredients` field followed by `db.session.add_all(...)` and the
flush (POST) or commit-time cascade (PUT): each name is looked up, a row is
inserted for each fresh name, and the returned list holds the id each
loaded object carries afterwards, in payload order.  The insert violates
the unique constraint on `ingredient.name` exactly when the payload repeats
a fresh name (two transient rows with one name), raising `IntegrityError`,
modelled as `none`. -/
def upsertIngredients (st : St) (names : List String) : Option (List Nat × St) :=
  let fresh := freshNames st names
  if fresh.Nodup then
    let st1 : St :=
      { st with
        ingredients := st.ingredients ++ mkNews st.nextIngredientId fresh,
        nextIngredientId := st.nextIngredientId + fresh.length }
    some (names.map (fun n => ((findIngredient st1 n).map Ingredient.id).getD 0), st1)
  else none

/-- `flask.request.args.get(key)`: the first value under the key in the
query string, if any. -/
def argsGet (args : List (String × String)) (key : String) : Option String :=
  (args.find? (fun kv => kv.1 == key)).map Prod.snd

/-- The filter the list view acts on, from
`if not flask.request.args or not (ingredients := flask.request.args.get("ingredient"))`:
no query parameters at all, a missing `ingredient` key, or an empty first
value all mean no filtering. -/
def requestedFilter (args : List (String × String)) : Option String :=
  if args.isEmpty then none
  else
    match argsGet args "ingredient" with
    | none => none
    | some v => if v == "" then none else some v

/-- SQL `Recipe.ingredients.any(name=x)`: the recipe is linked to an
ingredient row named `x`. -/
def recipeHasIngredient (st : St) (r : Recipe) (x : String) : Bool :=
  r.ingredientIds.any (fun iid => st.ingredients.any (fun i => i.id == iid && i.name == x))

/-- `RecipesView.get`: list all recipes, or those matching the
`ingredient` filter. -/
def RecipesView.get (st : St) (args : List (String × String)) : Resp :=
  match requestedFilter args with
  | none => .okList (st.recipes.map RecipeSchema.dump)
  | some x =>
    .okList ((st.recipes.filter (fun r => recipeHasIngredient st r x)).map RecipeSchema.dump)

/-- `RecipesView.post`: body checks, ingredient upsert (add_all + flush
happen before the conflict check), duplicate-name conflict check, then
creation and commit.  Error paths leave the store unchanged (no commit
happened; teardown rolls the session back). -/
def RecipesView.post (st : St) (body : Body) : Resp × St :=
  match body with
  | .empty => (.badRequest "No data", st)
  | .invalid => (.unprocessable, st)
  | .valid p =>
    match upsertIngredients st p.ingredients with
    | none => (.serverError, st)
    | some (ids, st1) =>
      match st1.recipes.find? (fun r => r.name == p.name) with
      | some _ => (.badRequest "Recipe already exists", st)
      | none =>
        let recipe : Recipe := ⟨st1.nextRecipeId, p.name, ids⟩
        (.created (RecipeSchema.dump recipe),
          { st1 with
            recipes := st1.recipes ++ [recipe],
            nextRecipeId := st1.nextRecipeId + 1 })

/-- `RecipeView.get`: fetch one recipe by id. -/
def RecipeView.get (st : St) (id : Nat) : Resp :=
  match st.recipes.find? (fun r => r.id == id) with
  | none => .notFound id
  | some r => .ok (RecipeSchema.dump r)

/-- `RecipeView.put`: existence check first, then body checks, then the
wholesale replacement of name and ingredient set, then commit.  The view
performs no name-conflict check of its own: renaming onto another stored
recipe's name violates the unique constraint on `recipe.name` at commit
time, raising `IntegrityError` (500) and rolling the whole transaction
back, new ingredients included. -/
def RecipeView.put (st : St) (id : Nat) (body : Body) : Resp × St :=
  match st.recipes.find? (fun r => r.id == id) with
  | none => (.notFound id, st)
  | some r =>
    match body with
    | .empty => (.badRequest "No data", st)
    | .invalid => (.unprocessable, st)
    | .valid p =>
      match upsertIngredients st p.ingredients with
      | none => (.serverError, st)
      | some (ids, st1) =>
        if st1.recipes.any (fun r2 => r2.name == p.name && r2.id != id) then
          (.serverError, st)
        else
          let r1 : Recipe := ⟨r.id, p.name, ids⟩
          (.ok (RecipeSchema.dump r1),
            { st1 with
              recipes := st1.recipes.map (fun r2 => if r2.id == id then r1 else r2) })

/-- `RecipeView.delete`: remove the recipe (and, through the relationship,
its join-table rows); ingredients themselves are never deleted. -/
def RecipeView.delete (st : St) (id : Nat) : Resp × St :=
  match st.recipes.find? (fun r => r.id == id) with
  | none => (.notFound id, st)
  | some _ =>
    (.okMsg "Deleted", { st with recipes := st.recipes.filter (fun r => r.id != id) })

/-- One HTTP request against the API. -/
inductive Op where
  | listRecipes (args : List (String × String))
  | createRecipe (body : Body)
  | showRecipe (id : Nat)
  | updateRecipe (id : Nat) (body : Body)
  | destroyRecipe (id : Nat)
deriving DecidableEq, Repr

/-- Dispatch of one request to its view method. -/
def apiStep (st : St) : Op → Resp × St
  | .listRecipes args => (RecipesView.get st args, st)
  | .createRecipe b => RecipesView.post st b
  | .showRecipe i => (RecipeView.get st i, st)
  | .updateRecipe i b => RecipeView.put st i b
  | .destroyRecipe i => RecipeView.delete st i

/-- States reachable from the empty database through API requests. -/
inductive Reachable : St → Prop
  | init : Reachable St.init
  | next (st : St) (op : Op) : Reachable st → Reachable (apiStep st op).2

/-- Integrity invariant of the store: primary keys and unique names in both
tables, and every id below its table's autoincrement counter. -/
def StoreInv (st : St) : Prop :=
  (st.ingredients.map Ingredient.id).Nodup ∧
  (st.ingredients.map Ingredient.name).Nodup ∧
  (∀ i ∈ st.ingredients, i.id < st.nextIngredientId) ∧
  (st.recipes.map Recipe.id).Nodup ∧
  (st.recipes.map Recipe.name).Nodup ∧
  (∀ r ∈ st.recipes, r.id < st.nextRecipeId)

/-- Sample payload: the recipe `R1` over ingredients `a` and `b`. -/
def payloadR : RecipePayload := ⟨"R1", ["a", "b"]⟩

/-- Store after posting `payloadR` to the empty database. -/
def stR : St := (RecipesView.post St.init (Body.valid payloadR)).2

/-- Serialized form of the recipe created from `payloadR`. -/
def outR : RecipeOut := ⟨1, "R1", [⟨1⟩, ⟨2⟩]⟩

/-- Store holding recipe `r1` over an ingredient with the empty name and
recipe `r2` over ingredient `a`. -/
def stB : St :=
  (RecipesView.post (RecipesView.post St.init (Body.valid ⟨"r1", [""]⟩)).2
    (Body.valid ⟨"r2", ["a"]⟩)).2

/-- Store after renaming the sample recipe to `R2` and shrinking its
ingredient set to `a` alone through PUT. -/
def stP : St := (RecipeView.put stR 1 (Body.valid ⟨"R2", ["a"]⟩)).2

theorem findByName_append (a b : List Ingredient) (n : String) :
    findByName (a ++ b) n = (findByName a n).or (findByName b n) := by
  simp [findByName, List.find?_append]

theorem findByName_eq_none {l : List Ingredient} {n : String} :
    findByName l n = none ↔ ∀ i ∈ l, i.name ≠ n := by
  simp [findByName, List.find?_eq_none]

theorem findByName_some {l : List Ingredient} {n : String} {i : Ingredient}
    (h : findByName l n = some i) : i ∈ l ∧ i.name = n := by
  refine ⟨List.mem_of_find?_eq_some h, ?_⟩
  have h2 := List.find?_some h
  simpa using h2

theorem findByName_isSome {l : List Ingredient} {n : String}
    (h : ∃ i ∈ l, i.name = n) : (findByName l n).isSome := by
  rw [findByName, List.find?_isSome]
  obtain ⟨i, hi, hn⟩ := h
  exact ⟨i, hi, by simp [hn]⟩

theorem mkNews_map_name (next : Nat) (ns : List String) :
    (mkNews next ns).map Ingredient.name = ns := by
  induction ns generalizing next with
  | nil => rfl
  | cons n rest ih => simp [mkNews, ih]

theorem mkNews_id_bounds (next : Nat) (ns : List String) :
    ∀ i ∈ mkNews next ns, next ≤ i.id ∧ i.id < next + ns.length := by
  induction ns generalizing next with
  | nil => simp [mkNews]
  | cons n rest ih =>
    intro i hi
    rw [mkNews, List.mem_cons] at hi
    rcases hi with rfl | hi
    · simp
    · have h2 := ih (next + 1) i hi
      simp only [List.length_cons]
      omega

theorem mkNews_ids_nodup (next : Nat) (ns : List String) :
    ((mkNews next ns).map Ingredient.id).Nodup := by
  induction ns generalizing next with
  | nil => simp [mkNews]
  | cons n rest ih =>
    rw [mkNews, List.map_cons, List.nodup_cons]
    refine ⟨?_, ih (next + 1)⟩
    intro hmem
    rw [List.mem_map] at hmem
    obtain ⟨i, hi, hid⟩ := hmem
    have hb := mkNews_id_bounds (next + 1) rest i hi
    have hid2 : i.id = next := hid
    omega

theorem mem_freshNames {st : St} {names : List String} {n : String} :
    n ∈ freshNames st names ↔ n ∈ names ∧ findIngredient st n = none := by
  rw [freshNames, List.mem_filterMap]
  constructor
  · rintro ⟨a, ha, hfn⟩
    cases hfa : findIngredient st a with
    | some i => rw [hfa] at hfn; simp at hfn
    | none =>
      rw [hfa] at hfn
      simp only [Option.some.injEq] at hfn
      subst hfn
      exact ⟨ha, hfa⟩
  · rintro ⟨hn, hf⟩
    exact ⟨n, hn, by rw [hf]⟩

theorem upsert_eq {st : St} {names : List String} {ids : List Nat} {st1 : St}
    (h : upsertIngredients st names = some (ids, st1)) :
    (freshNames st names).Nodup ∧
    st1.ingredients = st.ingredients ++ mkNews st.nextIngredientId (freshNames st names) ∧
    st1.recipes = st.recipes ∧
    st1.nextIngredientId = st.nextIngredientId + (freshNames st names).length ∧
    st1.nextRecipeId = st.nextRecipeId ∧
    ids = names.map (fun n => ((findIngredient st1 n).map Ingredient.id).getD 0) := by
  by_cases hnd : (freshNames st names).Nodup
  · simp only [upsertIngredients, hnd, if_true, Option.some.injEq, Prod.mk.injEq] at h
    obtain ⟨hids, hst⟩ := h
    subst hst
    exact ⟨hnd, rfl, rfl, rfl, rfl, hids.symm⟩
  · simp [upsertIngredients, hnd] at h

theorem upsert_find {st : St} {names : List String} {ids : List Nat} {st1 : St}
    (h : upsertIngredients st names = some (ids, st1)) {n : String} (hn : n ∈ names) :
    ∃ i, findIngredient st1 n = some i ∧ i.name = n ∧ i.id ∈ ids := by
  obtain ⟨hnd, hing, -, -, -, hids⟩ := upsert_eq h
  have hsome : (findIngredient st1 n).isSome := by
    rw [findIngredient, hing, findByName_append]
    cases hf : findByName st.ingredients n with
    | some i => simp
    | none =>
      simp only [Option.none_or]
      have hfr : n ∈ freshNames st names := mem_freshNames.2 ⟨hn, hf⟩
      apply findByName_isSome
      have hmn := mkNews_map_name st.nextIngredientId (freshNames st names)
      rw [← hmn, List.mem_map] at hfr
      obtain ⟨i, hi, hname⟩ := hfr
      exact ⟨i, hi, hname⟩
  obtain ⟨i, hi⟩ := Option.isSome_iff_exists.1 hsome
  have hprops := findByName_some hi
  refine ⟨i, hi, hprops.2, ?_⟩
  rw [hids, List.mem_map]
  exact ⟨n, hn, by rw [hi]; rfl⟩

theorem nodup_map_iff_pairwise {α : Type} {β : Type} {l : List α} {f : α → β} :
    (l.map f).Nodup ↔ l.Pairwise (fun a b => f a ≠ f b) :=
  List.pairwise_map

theorem post_valid_eq (st : St) (p : RecipePayload) :
    RecipesView.post st (Body.valid p) =
      match upsertIngredients st p.ingredients with
      | none => (.serverError, st)
      | some (ids, st1) =>
        match st1.recipes.find? (fun r => r.name == p.name) with
        | some _ => (.badRequest "Recipe already exists", st)
        | none =>
          (.created (RecipeSchema.dump ⟨st1.nextRecipeId, p.name, ids⟩),
            { st1 with
              recipes := st1.recipes ++ [⟨st1.nextRecipeId, p.name, ids⟩],
              nextRecipeId := st1.nextRecipeId + 1 }) := rfl

theorem put_valid_eq (st : St) (id : Nat) (p : RecipePayload) :
    RecipeView.put st id (Body.valid p) =
      match st.recipes.find? (fun r2 => r2.id == id) with
      | none => (.notFound id, st)
      | some r =>
        match upsertIngredients st p.ingredients with
        | none => (.serverError, st)
        | some (ids, st1) =>
          if st1.recipes.any (fun r2 => r2.name == p.name && r2.id != id) then
            (.serverError, st)
          else
            (.ok (RecipeSchema.dump ⟨r.id, p.name, ids⟩),
              { st1 with
                recipes := st1.recipes.map
                  (fun r2 => if r2.id == id then ⟨r.id, p.name, ids⟩ else r2) }) := by
  unfold RecipeView.put
  cases st.recipes.find? (fun r2 => r2.id == id) <;> rfl

theorem upsert_names_nodup {st : St} {names : List String} {ids : List Nat} {st1 : St}
    (h : upsertIngredients st names = some (ids, st1))
    (hnd : (st.ingredients.map Ingredient.name).Nodup) :
    (st1.ingredients.map Ingredient.name).Nodup := by
  obtain ⟨hfr, hing, -, -, -, -⟩ := upsert_eq h
  rw [hing, List.map_append, mkNews_map_name, List.nodup_append]
  refine ⟨hnd, hfr, ?_⟩
  intro a ha hb
  rw [mem_freshNames] at hb
  obtain ⟨-, hfnone⟩ := hb
  rw [findIngredient, findByName_eq_none] at hfnone
  rw [List.mem_map] at ha
  obtain ⟨i, hi, hname⟩ := ha
  exact hfnone i hi hname

theorem delete_ingredients (st : St) (i : Nat) :
    (RecipeView.delete st i).2.ingredients = st.ingredients := by
  unfold RecipeView.delete
  split <;> rfl

theorem post_ingredients (st : St) (b : Body) :
    (RecipesView.post st b).2.ingredients = st.ingredients ∨
    ∃ names ids st1, upsertIngredients st names = some (ids, st1) ∧
      (RecipesView.post st b).2.ingredients = st1.ingredients := by
  cases b with
  | empty => left; rfl
  | invalid => left; rfl
  | valid p =>
    rw [post_valid_eq]
    split
    · left; rfl
    · rename_i ids st1 hu
      split
      · left; rfl
      · right; exact ⟨p.ingredients, ids, st1, hu, rfl⟩

theorem put_ingredients (st : St) (i : Nat) (b : Body) :
    (RecipeView.put st i b).2.ingredients = st.ingredients ∨
    ∃ names ids st1, upsertIngredients st names = some (ids, st1) ∧
      (RecipeView.put st i b).2.ingredients = st1.ingredients := by
  cases b with
  | empty =>
    left
    unfold RecipeView.put
    split <;> rfl
  | invalid =>
    left
    unfold RecipeView.put
    split <;> rfl
  | valid p =>
    rw [put_valid_eq]
    split
    · left; rfl
    · split
      · left; rfl
      · rename_i ids st1 hu
        split
        · left; rfl
        · right; exact ⟨p.ingredients, ids, st1, hu, rfl⟩

theorem step_ingredients (st : St) (op : Op) :
    (apiStep st op).2.ingredients = st.ingredients ∨
    ∃ names ids st1, upsertIngredients st names = some (ids, st1) ∧
      (apiStep st op).2.ingredients = st1.ingredients := by
  cases op with
  | listRecipes args => left; rfl
  | showRecipe i => left; rfl
  | destroyRecipe i => left; exact delete_ingredients st i
  | createRecipe b => exact post_ingredients st b
  | updateRecipe i b => exact put_ingredients st i b

theorem step_ing_names_nodup (st : St) (op : Op)
    (h : (st.ingredients.map Ingredient.name).Nodup) :
    ((apiStep st op).2.ingredients.map Ingredient.name).Nodup := by
  rcases step_ingredients st op with heq | ⟨names, ids, st1, hu, heq⟩
  · rw [heq]; exact h
  · rw [heq]; exact upsert_names_nodup hu h

theorem upsert_inv {st : St} {names : List String} {ids : List Nat} {st1 : St}
    (h : upsertIngredients st names = some (ids, st1)) (hinv : StoreInv st) :
    StoreInv st1 := by
  obtain ⟨hii, hin, hib, hri, hrn, hrb⟩ := hinv
  obtain ⟨hfr, hing, hrec, hnext, hnrid, -⟩ := upsert_eq h
  refine ⟨?_, upsert_names_nodup h hin, ?_, ?_, ?_, ?_⟩
  · rw [hing, List.map_append, List.nodup_append]
    refine ⟨hii, mkNews_ids_nodup _ _, ?_⟩
    intro a ha hb
    rw [List.mem_map] at ha hb
    obtain ⟨i, hi, hai⟩ := ha
    obtain ⟨j, hj, haj⟩ := hb
    have h1 := hib i hi
    have h2 := (mkNews_id_bounds _ _ j hj).1
    omega
  · intro i hi
    rw [hing, List.mem_append] at hi
    rw [hnext]
    rcases hi with hi | hi
    · have := hib i hi; omega
    · have := mkNews_id_bounds _ _ i hi; omega
  · rw [hrec]; exact hri
  · rw [hrec]; exact hrn
  · rw [hrec, hnrid]; exact hrb

theorem post_inv (st : St) (b : Body) (hinv : StoreInv st) :
    StoreInv (RecipesView.post st b).2 := by
  cases b with
  | empty => exact hinv
  | invalid => exact hinv
  | valid p =>
    rw [post_valid_eq]
    split
    · exact hinv
    · rename_i ids st1 hu
      split
      · exact hinv
      · rename_i hc
        have hinv1 := upsert_inv hu hinv
        obtain ⟨hii, hin, hib, hri, hrn, hrb⟩ := hinv1
        have hnotin : ∀ r2 ∈ st1.recipes, r2.name ≠ p.name := by
          intro r2 hr2
          have h3 := List.find?_eq_none.1 hc r2 hr2
          simpa using h3
        refine ⟨hii, hin, hib, ?_, ?_, ?_⟩
        · show ((st1.recipes ++ [(⟨st1.nextRecipeId, p.name, ids⟩ : Recipe)]).map Recipe.id).Nodup
          rw [List.map_append, List.nodup_append]
          refine ⟨hri, by simp, ?_⟩
          intro a ha hb2
          simp only [List.map_cons, List.map_nil, List.mem_cons, List.not_mem_nil,
            or_false] at hb2
          rw [List.mem_map] at ha
          obtain ⟨r2, hr2, hr2id⟩ := ha
          have h4 := hrb r2 hr2
          have h5 : r2.id = a := hr2id
          have h6 : a = st1.nextRecipeId := hb2
          omega
        · show ((st1.recipes ++ [(⟨st1.nextRecipeId, p.name, ids⟩ : Recipe)]).map Recipe.name).Nodup
          rw [List.map_append, List.nodup_append]
          refine ⟨hrn, by simp, ?_⟩
          intro a ha hb2
          simp only [List.map_cons, List.map_nil, List.mem_cons, List.not_mem_nil,
            or_false] at hb2
          rw [List.mem_map] at ha
          obtain ⟨r2, hr2, hr2n⟩ := ha
          exact hnotin r2 hr2 (by rw [hr2n, hb2])
        · intro r2 hr2
          rw [show ({ st1 with
              recipes := st1.recipes ++ [⟨st1.nextRecipeId, p.name, ids⟩],
              nextRecipeId := st1.nextRecipeId + 1 } : St).recipes =
            st1.recipes ++ [⟨st1.nextRecipeId, p.name, ids⟩] from rfl,
            List.mem_append] at hr2
          show r2.id < st1.nextRecipeId + 1
          rcases hr2 with hr2 | hr2
          · have h4 := hrb r2 hr2; omega
          · simp only [List.mem_cons, List.not_mem_nil, or_false] at hr2
            subst hr2
            simp

theorem delete_inv (st : St) (i : Nat) (hinv : StoreInv st) :
    StoreInv (RecipeView.delete st i).2 := by
  unfold RecipeView.delete
  split
  · exact hinv
  · obtain ⟨hii, hin, hib, hri, hrn, hrb⟩ := hinv
    refine ⟨hii, hin, hib, ?_, ?_, ?_⟩
    · exact List.Nodup.sublist (List.Sublist.map _ (List.filter_sublist _)) hri
    · exact List.Nodup.sublist (List.Sublist.map _ (List.filter_sublist _)) hrn
    · intro r2 hr2
      exact hrb r2 (List.mem_of_mem_filter hr2)

theorem put_inv (st : St) (i : Nat) (b : Body) (hinv : StoreInv st) :
    StoreInv (RecipeView.put st i b).2 := by
  cases b with
  | empty => unfold RecipeView.put; split <;> exact hinv
  | invalid => unfold RecipeView.put; split <;> exact hinv
  | valid p =>
    rw [put_valid_eq]
    split
    · exact hinv
    · rename_i r hf
      split
      · exact hinv
      · rename_i ids st1 hu
        split
        · exact hinv
        · rename_i hany
          have hinv1 := upsert_inv hu hinv
          obtain ⟨hii, hin, hib, hri, hrn, hrb⟩ := hinv1
          have hrid : r.id = i := by
            have h3 := List.find?_some hf
            simpa using h3
          have hanyf : (st1.recipes.any fun r2 => r2.name == p.name && r2.id != i) = false := by
            cases h3 : (st1.recipes.any fun r2 => r2.name == p.name && r2.id != i) with
            | false => rfl
            | true => exact absurd h3 hany
          have hcond : ∀ r2 ∈ st1.recipes, r2.name = p.name → r2.id = i := by
            intro r2 hr2 hname
            have h4 := List.any_eq_false.1 hanyf r2 hr2
            simp only [hname, beq_self_eq_true, Bool.true_and, bne,
              Bool.not_eq_true, Bool.not_eq_false] at h4
            simpa using h4
          refine ⟨hii, hin, hib, ?_, ?_, ?_⟩
          · show ((st1.recipes.map
                (fun r2 => if r2.id == i then (⟨r.id, p.name, ids⟩ : Recipe) else r2)).map
                Recipe.id).Nodup
            have heq : (st1.recipes.map
                (fun r2 => if r2.id == i then (⟨r.id, p.name, ids⟩ : Recipe) else r2)).map
                Recipe.id = st1.recipes.map Recipe.id := by
              rw [List.map_map]
              apply List.map_congr_left
              intro a ha
              by_cases h2 : (a.id == i) = true
              · have e1 : a.id = i := by simpa using h2
                simp [Function.comp, h2, hrid, e1]
              · simp [Function.comp, h2]
            rw [heq]
            exact hri
          · show ((st1.recipes.map
                (fun r2 => if r2.id == i then (⟨r.id, p.name, ids⟩ : Recipe) else r2)).map
                Recipe.name).Nodup
            rw [List.map_map, nodup_map_iff_pairwise]
            have hpw := List.Pairwise.and (nodup_map_iff_pairwise.1 hri)
              (nodup_map_iff_pairwise.1 hrn)
            refine List.Pairwise.imp_of_mem ?_ hpw
            intro a b2 ha hb2 hab
            obtain ⟨hid, hname⟩ := hab
            by_cases h2 : (a.id == i) = true <;> by_cases h3 : (b2.id == i) = true
            · exfalso
              have e1 : a.id = i := by simpa using h2
              have e2 : b2.id = i := by simpa using h3
              exact hid (e1.trans e2.symm)
            · simp only [Function.comp, h2, h3, if_true, if_false]
              intro hcontra
              have hb2ne : ¬ b2.id = i := by simpa using h3
              have hb2n : b2.name = p.name := by
                have : p.name = b2.name := hcontra
                exact this.symm
              exact hb2ne (hcond b2 hb2 hb2n)
            · simp only [Function.comp, h2, h3, if_true, if_false]
              intro hcontra
              have hane : ¬ a.id = i := by simpa using h2
              have han : a.name = p.name := hcontra
              exact hane (hcond a ha han)
            · simp only [Function.comp, h2, h3, if_false]
              exact hname
          · intro r2 hr2
            have hr2b : r2 ∈ st1.recipes.map
                (fun r2 => if r2.id == i then (⟨r.id, p.name, ids⟩ : Recipe) else r2) := hr2
            rw [List.mem_map] at hr2b
            obtain ⟨a, ha, hup⟩ := hr2b
            show r2.id < st1.nextRecipeId
            by_cases h2 : (a.id == i) = true
            · rw [← hup]
              simp only [h2, if_true]
              show r.id < st1.nextRecipeId
              have e2 : a.id = i := by simpa using h2
              rw [hrid, ← e2]
              exact hrb a ha
            · rw [← hup]
              simp only [h2, if_false]
              exact hrb a ha

theorem apiStep_inv (st : St) (op : Op) (hinv : StoreInv st) :
    StoreInv (apiStep st op).2 := by
  cases op with
  | listRecipes args => exact hinv
  | showRecipe i => exact hinv
  | createRecipe b => exact post_inv st b hinv
  | updateRecipe i b => exact put_inv st i b hinv
  | destroyRecipe i => exact delete_inv st i hinv

theorem reachable_inv {st : St} (h : Reachable st) : StoreInv st := by
  induction h with
  | init => exact ⟨by decide, by decide, by decide, by decide, by decide, by decide⟩
  | next st op hst ih => exact apiStep_inv st op ih

theorem post_created {st : St} {p : RecipePayload} {out : RecipeOut} {st2 : St}
    (h : RecipesView.post st (Body.valid p) = (Resp.created out, st2)) :
    ∃ ids st1, upsertIngredients st p.ingredients = some (ids, st1) ∧
      st1.recipes.find? (fun r => r.name == p.name) = none ∧
      out = RecipeSchema.dump ⟨st1.nextRecipeId, p.name, ids⟩ ∧
      st2 = { st1 with
        recipes := st1.recipes ++ [(⟨st1.nextRecipeId, p.name, ids⟩ : Recipe)],
        nextRecipeId := st1.nextRecipeId + 1 } := by
  rw [post_valid_eq] at h
  split at h
  · simp at h
  · rename_i ids st1 hu
    split at h
    · simp at h
    · rename_i hc
      simp only [Prod.mk.injEq, Resp.created.injEq] at h
      obtain ⟨h1, h2⟩ := h
      exact ⟨ids, st1, hu, hc, h1.symm, h2.symm⟩

theorem put_ok {st : St} {i : Nat} {p : RecipePayload} {out : RecipeOut} {st2 : St}
    (h : RecipeView.put st i (Body.valid p) = (Resp.ok out, st2)) :
    ∃ r ids st1, st.recipes.find? (fun r2 => r2.id == i) = some r ∧
      upsertIngredients st p.ingredients = some (ids, st1) ∧
      (st1.recipes.any fun r2 => r2.name == p.name && r2.id != i) = false ∧
      out = RecipeSchema.dump ⟨r.id, p.name, ids⟩ ∧
      st2 = { st1 with recipes :=
        st1.recipes.map (fun r2 => if r2.id == i then (⟨r.id, p.name, ids⟩ : Recipe) else r2) } := by
  rw [put_valid_eq] at h
  split at h
  · simp at h
  · rename_i r hf
    split at h
    · simp at h
    · rename_i ids st1 hu
      split at h
      · simp at h
      · rename_i hany
        have hanyf : (st1.recipes.any fun r2 => r2.name == p.name && r2.id != i) = false := by
          cases h3 : (st1.recipes.any fun r2 => r2.name == p.name && r2.id != i) with
          | false => rfl
          | true => exact absurd h3 hany
        simp only [Prod.mk.injEq, Resp.ok.injEq] at h
        obtain ⟨h1, h2⟩ := h
        exact ⟨r, ids, st1, hf, hu, hanyf, h1.symm, h2.symm⟩

theorem countP_beq_eq_one_of_nodup {l : List String} {n : String}
    (hnd : l.Nodup) (hm : n ∈ l) : l.countP (fun s => s == n) = 1 := by
  induction l with
  | nil => simp at hm
  | cons a rest ih =>
    rw [List.nodup_cons] at hnd
    rw [List.countP_cons]
    rcases List.mem_cons.1 hm with rfl | hm2
    · have hz : rest.countP (fun s => s == n) = 0 := by
        rw [List.countP_eq_zero]
        intro b hb hbeq
        have hbn : b = n := by simpa using hbeq
        exact hnd.1 (hbn ▸ hb)
      rw [hz]
      simp
    · have h1 : rest.countP (fun s => s == n) = 1 := ih hnd.2 hm2
      have hz : ¬ ((a == n) = true) := by
        simp only [beq_iff_eq]
        intro hc
        exact hnd.1 (hc ▸ hm2)
      rw [h1]
      simp [hz]

theorem upsert_c1 {st : St} {names : List String} {ids : List Nat} {st1 : St}
    (h : upsertIngredients st names = some (ids, st1)) {n : String} (hn : n ∈ names) :
    (∀ i, findIngredient st n = some i → i ∈ st1.ingredients ∧ i.id ∈ ids) ∧
    (findIngredient st n = none →
      st1.ingredients.countP (fun i => i.name == n) = 1 ∧
      ∃ i, i ∈ st1.ingredients ∧ i.name = n ∧ i.id ∈ ids) := by
  obtain ⟨hfr, hing, -, -, -, hids⟩ := upsert_eq h
  constructor
  · intro i hf
    have hmem : i ∈ st.ingredients := (findByName_some hf).1
    have hfb : findByName st.ingredients n = some i := hf
    have hf1 : findIngredient st1 n = some i := by
      rw [findIngredient, hing, findByName_append, hfb]
      rfl
    refine ⟨by rw [hing]; exact List.mem_append_left _ hmem, ?_⟩
    rw [hids, List.mem_map]
    exact ⟨n, hn, by rw [hf1]; rfl⟩
  · intro hf
    have hnfresh : n ∈ freshNames st names := mem_freshNames.2 ⟨hn, hf⟩
    refine ⟨?_, ?_⟩
    · rw [hing, List.countP_append]
      have hfb : findByName st.ingredients n = none := hf
      have hz : st.ingredients.countP (fun i => i.name == n) = 0 := by
        rw [List.countP_eq_zero]
        intro i hi hbeq
        exact findByName_eq_none.1 hfb i hi (by simpa using hbeq)
      have hcm : (mkNews st.nextIngredientId (freshNames st names)).countP
          (fun i => i.name == n)
          = ((mkNews st.nextIngredientId (freshNames st names)).map
              Ingredient.name).countP (fun s => s == n) := by
        rw [List.countP_map]
        rfl
      have ho : (mkNews st.nextIngredientId (freshNames st names)).countP
          (fun i => i.name == n) = 1 := by
        rw [hcm, mkNews_map_name]
        exact countP_beq_eq_one_of_nodup hfr hnfresh
      omega
    · obtain ⟨i, hfind, hname, hid⟩ := upsert_find h hn
      exact ⟨i, (findByName_some hfind).1, hname, hid⟩

theorem get_notFound {st : St} {i : Nat} (h : ∀ r ∈ st.recipes, r.id ≠ i) :
    RecipeView.get st i = Resp.notFound i := by
  have hf : st.recipes.find? (fun r2 => r2.id == i) = none := by
    rw [List.find?_eq_none]
    intro r hr
    simpa using h r hr
  unfold RecipeView.get
  rw [hf]

theorem put_notFound {st : St} {i : Nat} (h : ∀ r ∈ st.recipes, r.id ≠ i) (b : Body) :
    RecipeView.put st i b = (Resp.notFound i, st) := by
  have hf : st.recipes.find? (fun r2 => r2.id == i) = none := by
    rw [List.find?_eq_none]
    intro r hr
    simpa using h r hr
  unfold RecipeView.put
  rw [hf]

theorem delete_notFound {st : St} {i : Nat} (h : ∀ r ∈ st.recipes, r.id ≠ i) :
    RecipeView.delete st i = (Resp.notFound i, st) := by
  have hf : st.recipes.find? (fun r2 => r2.id == i) = none := by
    rw [List.find?_eq_none]
    intro r hr
    simpa using h r hr
  unfold RecipeView.delete
  rw [hf]

theorem delete_found {st : St} {i : Nat} (h : ∃ r ∈ st.recipes, r.id = i) :
    RecipeView.delete st i =
      (Resp.okMsg "Deleted",
        { st with recipes := st.recipes.filter (fun r => r.id != i) }) := by
  obtain ⟨r, hr, hri⟩ := h
  unfold RecipeView.delete
  cases hf : st.recipes.find? (fun r2 => r2.id == i) with
  | some r0 => rfl
  | none =>
    exfalso
    exact absurd hri (by simpa using List.find?_eq_none.1 hf r hr)

theorem requestedFilter_single (x : String) :
    requestedFilter [("ingredient", x)] = if x == "" then none else some x := by
  have hag : argsGet [("ingredient", x)] "ingredient" = some x := by
    unfold argsGet
    rw [List.find?_cons_of_pos _ (by simp)]
    rfl
  unfold requestedFilter
  rw [hag]
  simp

theorem find?_map_update {l : List Recipe} {i : Nat} {r : Recipe} {r1 : Recipe}
    (hf : l.find? (fun r2 => r2.id == i) = some r) (hr1 : (r1.id == i) = true) :
    (l.map (fun r2 => if r2.id == i then r1 else r2)).find?
      (fun r2 => r2.id == i) = some r1 := by
  induction l with
  | nil => simp at hf
  | cons a rest ih =>
    rw [List.map_cons]
    by_cases ha : (a.id == i) = true
    · have hupd : (if a.id == i then r1 else a) = r1 := if_pos ha
      rw [hupd]
      exact List.find?_cons_of_pos _ hr1
    · have hupd : (if a.id == i then r1 else a) = a := if_neg ha
      rw [hupd]
      rw [@List.find?_cons_of_neg Recipe (fun r2 => r2.id == i) a rest ha] at hf
      rw [@List.find?_cons_of_neg Recipe (fun r2 => r2.id == i) a
        (rest.map (fun r2 => if r2.id == i then r1 else r2)) ha]
      exact ih hf

/-- C10: for every id with no stored recipe, PUT /recipes/{id} returns 404
with the store unchanged, regardless of the request body — the existence
check precedes body and validation handling, so a missing body does not
yield 400 and an invalid body does not yield 422 when the id is unknown. -/
theorem c10_put_unknown_id (st : St) (i : Nat) (h : ∀ r ∈ st.recipes, r.id ≠ i) :
    ∀ b, RecipeView.put st i b = (Resp.notFound i, st) ∧
      (RecipeView.put st i b).1.status = 404 := by
  intro b
  have heq := put_notFound h b
  exact ⟨heq, by rw [heq]; rfl⟩

/-- Witness for C10: PUT on the empty store with id 1 and a missing body. -/
theorem c10_put_unknown_id_witness :
    RecipeView.put St.init 1 Body.empty = (Resp.notFound 1, St.init) ∧
    (RecipeView.put St.init 1 Body.empty).1.status = 404 :=
  c10_put_unknown_id St.init 1 (by decide) Body.empty

/-- C6: DELETE on an existing id returns 200 with body {message: "Deleted"}
and removes that recipe, so a subsequent GET of the same id returns 404;
GET, PUT and DELETE on an id with no stored recipe return 404. -/
theorem c6_delete_semantics (st : St) (i : Nat) :
    ((∃ r ∈ st.recipes, r.id = i) →
      (RecipeView.delete st i).1 = Resp.okMsg "Deleted" ∧
      (RecipeView.delete st i).1.status = 200 ∧
      (∀ r2 ∈ (RecipeView.delete st i).2.recipes, r2.id ≠ i) ∧
      (RecipeView.get (RecipeView.delete st i).2 i).status = 404) ∧
    ((∀ r ∈ st.recipes, r.id ≠ i) →
      (RecipeView.get st i).status = 404 ∧
      (∀ b, (RecipeView.put st i b).1.status = 404) ∧
      (RecipeView.delete st i).1.status = 404) := by
  constructor
  · intro hex
    have heq := delete_found hex
    have hgone : ∀ r2 ∈ (RecipeView.delete st i).2.recipes, r2.id ≠ i := by
      rw [heq]
      intro r2 hr2
      have hr2f : r2 ∈ st.recipes.filter (fun r3 => r3.id != i) := hr2
      have h5 := List.of_mem_filter hr2f
      simpa using h5
    refine ⟨by rw [heq], by rw [heq]; rfl, hgone, ?_⟩
    rw [get_notFound hgone]
    rfl
  · intro hnone
    refine ⟨by rw [get_notFound hnone]; rfl, ?_, by rw [delete_notFound hnone]; rfl⟩
    intro b
    rw [put_notFound hnone b]
    rfl

/-- Witness for C6: delete the sample recipe (id 1) from `stR`, and probe
the unknown id 2 on the same store. -/
theorem c6_delete_semantics_witness :
    ((RecipeView.delete stR 1).1 = Resp.okMsg "Deleted" ∧
     (RecipeView.delete stR 1).1.status = 200 ∧
     (∀ r2 ∈ (RecipeView.delete stR 1).2.recipes, r2.id ≠ 1) ∧
     (RecipeView.get (RecipeView.delete stR 1).2 1).status = 404) ∧
    ((RecipeView.get stR 2).status = 404 ∧
     (∀ b, (RecipeView.put stR 2 b).1.status = 404) ∧
     (RecipeView.delete stR 2).1.status = 404) :=
  ⟨(c6_delete_semantics stR 1).1 (by decide), (c6_delete_semantics stR 2).2 (by decide)⟩

/-- C9: in every state reachable through the API operations, recipe names
are pairwise distinct and ingredient names are pairwise distinct. -/
theorem c9_unique_names (st : St) (h : Reachable st) :
    (st.recipes.map Recipe.name).Nodup ∧ (st.ingredients.map Ingredient.name).Nodup := by
  have hinv := reachable_inv h
  exact ⟨hinv.2.2.2.2.1, hinv.2.1⟩

/-- Witness for C9 at the reachable state `stR`. -/
theorem c9_unique_names_witness :
    (stR.recipes.map Recipe.name).Nodup ∧ (stR.ingredients.map Ingredient.name).Nodup :=
  c9_unique_names stR
    (Reachable.next St.init (Op.createRecipe (Body.valid payloadR)) Reachable.init)

/-- C2 counterexample: `stR` stores a recipe named R1, yet a POST reusing
the name R1 whose payload repeats the fresh ingredient name x makes the
pre-conflict-check ingredient flush violate the unique constraint on
ingredient.name, so the request errors with 500 instead of answering the
400 conflict the claim demands. -/
theorem c2_conflict_counterexample :
    (∃ r ∈ stR.recipes, r.name = "R1") ∧
    (RecipesView.post stR (Body.valid ⟨"R1", ["x", "x"]⟩)).1.status = 500 ∧
    ¬ (RecipesView.post stR (Body.valid ⟨"R1", ["x", "x"]⟩)).1.status = 400 := by
  decide

/-- C2 (amended): when a stored recipe already carries the posted name, the
store always comes back unchanged (no new record), and provided the
ingredient upsert does not fail first, the response is the 400 conflict
error "Recipe already exists". -/
theorem c2_conflict_amended (st : St) (p : RecipePayload)
    (hex : ∃ r ∈ st.recipes, r.name = p.name) :
    (RecipesView.post st (Body.valid p)).2 = st ∧
    ((upsertIngredients st p.ingredients).isSome →
      (RecipesView.post st (Body.valid p)).1 = Resp.badRequest "Recipe already exists" ∧
      (RecipesView.post st (Body.valid p)).1.status = 400) := by
  rw [post_valid_eq]
  split
  · rename_i hu
    refine ⟨rfl, ?_⟩
    intro hs
    rw [hu] at hs
    simp at hs
  · rename_i ids st1 hu
    split
    · exact ⟨rfl, fun _ => ⟨rfl, rfl⟩⟩
    · rename_i hc
      exfalso
      obtain ⟨r, hr, hrn⟩ := hex
      have hrec : st1.recipes = st.recipes := (upsert_eq hu).2.2.1
      have h5 := List.find?_eq_none.1 hc r (by rw [hrec]; exact hr)
      simp [hrn] at h5

/-- Witness for C2 (amended): POST name R1 (already stored in `stR`) with
the existing ingredient a. -/
theorem c2_conflict_amended_witness :
    (RecipesView.post stR (Body.valid ⟨"R1", ["a"]⟩)).2 = stR ∧
    (RecipesView.post stR (Body.valid ⟨"R1", ["a"]⟩)).1 =
      Resp.badRequest "Recipe already exists" ∧
    (RecipesView.post stR (Body.valid ⟨"R1", ["a"]⟩)).1.status = 400 :=
  ⟨(c2_conflict_amended stR ⟨"R1", ["a"]⟩ (by decide)).1,
   (c2_conflict_amended stR ⟨"R1", ["a"]⟩ (by decide)).2 (by decide)⟩

/-- C4: when the query string holds several values for `ingredient`, only
the first one matters: whatever follows the first occurrence (further
`ingredient` values included) can be replaced by anything without changing
the response — there is no AND/OR combination of the filters. -/
theorem c4_first_value_only (st : St) (pre rest1 rest2 : List (String × String))
    (v : String) (hpre : argsGet pre "ingredient" = none) :
    RecipesView.get st (pre ++ ("ingredient", v) :: rest1) =
    RecipesView.get st (pre ++ ("ingredient", v) :: rest2) := by
  have hp : pre.find? (fun kv => kv.1 == "ingredient") = none := by
    cases hcase : pre.find? (fun kv => kv.1 == "ingredient") with
    | none => rfl
    | some kv => rw [argsGet, hcase] at hpre; simp at hpre
  have hfind : ∀ tail : List (String × String),
      argsGet (pre ++ ("ingredient", v) :: tail) "ingredient" = some v := by
    intro tail
    rw [argsGet, List.find?_append, hp, Option.none_or,
      List.find?_cons_of_pos _ (by simp)]
    rfl
  have hrf : ∀ tail : List (String × String),
      requestedFilter (pre ++ ("ingredient", v) :: tail) =
        if v == "" then none else some v := by
    intro tail
    have hne : (pre ++ ("ingredient", v) :: tail).isEmpty = false := by
      cases pre <;> rfl
    unfold requestedFilter
    rw [hne, hfind tail]
    simp
  unfold RecipesView.get
  rw [hrf rest1, hrf rest2]

/-- Witness for C4: a second `ingredient` value is ignored. -/
theorem c4_first_value_only_witness :
    RecipesView.get stR ([] ++ ("ingredient", "a") :: [("ingredient", "b")]) =
    RecipesView.get stR ([] ++ ("ingredient", "a") :: []) :=
  c4_first_value_only stR [] [("ingredient", "b")] [] "a" (by decide)

/-- C7: every successful response that renders a recipe (POST create, GET
one, GET list, PUT) is a `RecipeSchema.dump` of a stored recipe, and the
dump has shape {id, name, ingredients: [{id}, ...]} — each entry of the
ingredients array carries only the ingredient id, never a name. -/
theorem c7_output_shape :
    (∀ r : Recipe, (RecipeSchema.dump r).id = r.id ∧
      (RecipeSchema.dump r).name = r.name ∧
      (RecipeSchema.dump r).ingredients = r.ingredientIds.map IngredientOut.mk) ∧
    (∀ st p out st2, RecipesView.post st (Body.valid p) = (Resp.created out, st2) →
      ∃ r ∈ st2.recipes, out = RecipeSchema.dump r) ∧
    (∀ st i out, RecipeView.get st i = Resp.ok out →
      ∃ r ∈ st.recipes, out = RecipeSchema.dump r) ∧
    (∀ st args l, RecipesView.get st args = Resp.okList l →
      ∃ rs : List Recipe, (∀ r ∈ rs, r ∈ st.recipes) ∧ l = rs.map RecipeSchema.dump) ∧
    (∀ st i p out st2, RecipeView.put st i (Body.valid p) = (Resp.ok out, st2) →
      ∃ r ∈ st2.recipes, out = RecipeSchema.dump r) := by
  refine ⟨?_, ?_, ?_, ?_, ?_⟩
  · intro r
    exact ⟨rfl, rfl, rfl⟩
  · intro st p out st2 h
    obtain ⟨ids, st1, hu, hc, hout, hst2⟩ := post_created h
    refine ⟨⟨st1.nextRecipeId, p.name, ids⟩, ?_, hout⟩
    rw [hst2]
    show (⟨st1.nextRecipeId, p.name, ids⟩ : Recipe) ∈
      st1.recipes ++ [(⟨st1.nextRecipeId, p.name, ids⟩ : Recipe)]
    exact List.mem_append_right _ (by simp)
  · intro st i out h
    unfold RecipeView.get at h
    cases hf : st.recipes.find? (fun r => r.id == i) with
    | none => rw [hf] at h; simp at h
    | some r =>
      rw [hf] at h
      simp only [Resp.ok.injEq] at h
      exact ⟨r, List.mem_of_find?_eq_some hf, h.symm⟩
  · intro st args l h
    unfold RecipesView.get at h
    cases hq : requestedFilter args with
    | none =>
      rw [hq] at h
      simp only [Resp.okList.injEq] at h
      exact ⟨st.recipes, fun r hr => hr, h.symm⟩
    | some x =>
      rw [hq] at h
      simp only [Resp.okList.injEq] at h
      exact ⟨st.recipes.filter (fun r => recipeHasIngredient st r x),
        fun r hr => List.mem_of_mem_filter hr, h.symm⟩
  · intro st i p out st2 h
    obtain ⟨r, ids, st1, hf, hu, hany, hout, hst2⟩ := put_ok h
    have hrec : st1.recipes = st.recipes := (upsert_eq hu).2.2.1
    have hrmem : r ∈ st1.recipes := by
      rw [hrec]
      exact List.mem_of_find?_eq_some hf
    have hbeq := List.find?_some hf
    refine ⟨⟨r.id, p.name, ids⟩, ?_, hout⟩
    rw [hst2]
    show (⟨r.id, p.name, ids⟩ : Recipe) ∈
      st1.recipes.map (fun r2 => if r2.id == i then (⟨r.id, p.name, ids⟩ : Recipe) else r2)
    rw [List.mem_map]
    refine ⟨r, hrmem, ?_⟩
    rw [if_pos hbeq]

/-- Witness for C7: the GET-one conjunct at the sample store. -/
theorem c7_output_shape_witness :
    ∃ r ∈ stR.recipes, outR = RecipeSchema.dump r :=
  c7_output_shape.2.2.1 stR 1 outR (by decide)

/-- C8: a POST accepted with status 201 returns one linked ingredient id
per payload ingredient entry, and an immediately following GET of the
returned id answers the identical body. -/
theorem c8_create_fetch (st st2 : St) (p : RecipePayload) (out : RecipeOut)
    (hbound : ∀ r ∈ st.recipes, r.id < st.nextRecipeId)
    (h : RecipesView.post st (Body.valid p) = (Resp.created out, st2)) :
    (RecipesView.post st (Body.valid p)).1.status = 201 ∧
    out.ingredients.length = p.ingredients.length ∧
    RecipeView.get st2 out.id = Resp.ok out := by
  obtain ⟨ids, st1, hu, hc, hout, hst2⟩ := post_created h
  obtain ⟨-, -, hrec, -, hnri, hids⟩ := upsert_eq hu
  refine ⟨by rw [h]; rfl, ?_, ?_⟩
  · rw [hout]
    show (ids.map IngredientOut.mk).length = p.ingredients.length
    rw [List.length_map, hids, List.length_map]
  · have hnone : st1.recipes.find? (fun r => r.id == out.id) = none := by
      rw [List.find?_eq_none]
      intro r hr
      have hb : r.id < st1.nextRecipeId := by
        rw [hnri]
        exact hbound r (hrec ▸ hr)
      rw [hout]
      show ¬ (r.id == st1.nextRecipeId) = true
      simp
      omega
    have hpos : ((⟨st1.nextRecipeId, p.name, ids⟩ : Recipe).id == out.id) = true := by
      rw [hout]
      simp [RecipeSchema.dump]
    have hfind : st2.recipes.find? (fun r => r.id == out.id) =
        some ⟨st1.nextRecipeId, p.name, ids⟩ := by
      rw [hst2]
      show (st1.recipes ++ [(⟨st1.nextRecipeId, p.name, ids⟩ : Recipe)]).find?
          (fun r => r.id == out.id) = some ⟨st1.nextRecipeId, p.name, ids⟩
      rw [List.find?_append, hnone, Option.none_or]
      exact List.find?_cons_of_pos _ hpos
    unfold RecipeView.get
    rw [hfind, hout]

/-- Witness for C8: create the sample recipe on the empty store and
re-fetch it. -/
theorem c8_create_fetch_witness :
    (RecipesView.post St.init (Body.valid payloadR)).1.status = 201 ∧
    outR.ingredients.length = payloadR.ingredients.length ∧
    RecipeView.get stR outR.id = Resp.ok outR :=
  c8_create_fetch St.init stR payloadR outR (by decide) (by decide)

/-- C3 counterexample: `stB` is reached by posting recipe r1 over an
ingredient with the empty name and recipe r2 over ingredient a.  GET with
`ingredient=` (first value the empty string) returns both recipes, though
only r1's ingredient set contains an ingredient named "" — the code
treats the falsy empty value as no filter, so the response is not the
exact-match set the claim demands. -/
theorem c3_empty_filter_counterexample :
    (RecipesView.get stB [("ingredient", "")]).listBody.length = 2 ∧
    ((stB.recipes.filter (fun r => recipeHasIngredient stB r "")).map
      RecipeSchema.dump).length = 1 ∧
    ¬ (RecipesView.get stB [("ingredient", "")]).listBody =
      (stB.recipes.filter (fun r => recipeHasIngredient stB r "")).map
        RecipeSchema.dump := by
  decide

/-- C3 (amended): with no `ingredient` parameter every stored recipe is
returned; with a nonempty value X exactly the recipes whose ingredient set
contains an ingredient named X are returned (when the first value is the
empty string the filter is dropped and every recipe is returned instead);
filtering by any one ingredient name of a recipe always returns a list
containing that recipe. -/
theorem c3_filter_amended (st : St) :
    (∀ args, argsGet args "ingredient" = none →
      RecipesView.get st args = Resp.okList (st.recipes.map RecipeSchema.dump)) ∧
    (∀ x : String, ¬ x = "" →
      RecipesView.get st [("ingredient", x)] =
        Resp.okList ((st.recipes.filter
          (fun r => recipeHasIngredient st r x)).map RecipeSchema.dump)) ∧
    (∀ r ∈ st.recipes, ∀ ing ∈ st.ingredients, ing.id ∈ r.ingredientIds →
      RecipeSchema.dump r ∈ (RecipesView.get st [("ingredient", ing.name)]).listBody) := by
  have hsingle : ∀ x : String, ¬ x = "" →
      requestedFilter [("ingredient", x)] = some x := by
    intro x hx
    rw [requestedFilter_single]
    have hbx : (x == "") = false := by
      cases hc : (x == "") with
      | false => rfl
      | true => exact absurd (by simpa using hc) hx
    rw [hbx]
    rfl
  refine ⟨?_, ?_, ?_⟩
  · intro args hnone
    have hrf : requestedFilter args = none := by
      unfold requestedFilter
      split
      · rfl
      · rw [hnone]
    unfold RecipesView.get
    rw [hrf]
  · intro x hx
    unfold RecipesView.get
    rw [hsingle x hx]
  · intro r hr ing hing hid
    by_cases hxe : ing.name = ""
    · have hrf : requestedFilter [("ingredient", ing.name)] = none := by
        rw [requestedFilter_single, hxe]
        rfl
      unfold RecipesView.get
      rw [hrf]
      show RecipeSchema.dump r ∈ (Resp.okList (st.recipes.map RecipeSchema.dump)).listBody
      simp only [Resp.listBody]
      exact List.mem_map_of_mem _ hr
    · have hmatch : recipeHasIngredient st r ing.name = true := by
        unfold recipeHasIngredient
        rw [List.any_eq_true]
        refine ⟨ing.id, hid, ?_⟩
        rw [List.any_eq_true]
        exact ⟨ing, hing, by simp⟩
      unfold RecipesView.get
      rw [hsingle ing.name hxe]
      simp only [Resp.listBody]
      apply List.mem_map_of_mem
      rw [List.mem_filter]
      exact ⟨hr, hmatch⟩

/-- Witness for C3 (amended): exact filtering by the nonempty name a on the
two-recipe store. -/
theorem c3_filter_amended_witness :
    RecipesView.get stB [("ingredient", "a")] =
      Resp.okList ((stB.recipes.filter
        (fun r => recipeHasIngredient stB r "a")).map RecipeSchema.dump) :=
  (c3_filter_amended stB).2.1 "a" (by decide)

/-- C5: a PUT that answers 200 stores under the requested id a recipe whose
name is the payload name and whose linked ingredient ids are exactly the
ids of the ingredients the payload references — wholesale replacement, so
previously linked ingredients absent from the payload are no longer
linked — and a subsequent GET of that id answers exactly the returned
body. -/
theorem c5_put_replaces (st st2 : St) (i : Nat) (p : RecipePayload) (out : RecipeOut)
    (h : RecipeView.put st i (Body.valid p) = (Resp.ok out, st2)) :
    ∃ r2 ∈ st2.recipes, r2.id = i ∧ r2.name = p.name ∧
      (∀ iid, iid ∈ r2.ingredientIds ↔
        ∃ n ∈ p.ingredients, findIngredient st2 n = some ⟨iid, n⟩) ∧
      out = RecipeSchema.dump r2 ∧
      RecipeView.get st2 i = Resp.ok out := by
  obtain ⟨r, ids, st1, hf, hu, hany, hout, hst2⟩ := put_ok h
  obtain ⟨-, -, hrec, -, -, hids⟩ := upsert_eq hu
  have hbeq := List.find?_some hf
  have hrid : r.id = i := by simpa using hbeq
  have hsame : ∀ n, findIngredient st2 n = findIngredient st1 n := by
    intro n
    rw [hst2]
    rfl
  have hrmem : r ∈ st1.recipes := by
    rw [hrec]
    exact List.mem_of_find?_eq_some hf
  refine ⟨⟨r.id, p.name, ids⟩, ?_, hrid, rfl, ?_, hout, ?_⟩
  · rw [hst2]
    show (⟨r.id, p.name, ids⟩ : Recipe) ∈
      st1.recipes.map (fun r2 => if r2.id == i then (⟨r.id, p.name, ids⟩ : Recipe) else r2)
    rw [List.mem_map]
    refine ⟨r, hrmem, ?_⟩
    show (if r.id == i then (⟨r.id, p.name, ids⟩ : Recipe) else r) = ⟨r.id, p.name, ids⟩
    rw [if_pos hbeq]
  · intro iid
    constructor
    · intro hin
      have hin2 : iid ∈ p.ingredients.map
          (fun n => ((findIngredient st1 n).map Ingredient.id).getD 0) := by
        rw [← hids]
        exact hin
      rw [List.mem_map] at hin2
      obtain ⟨n, hn, hfn⟩ := hin2
      have hfn2 : ((findIngredient st1 n).map Ingredient.id).getD 0 = iid := hfn
      obtain ⟨ing, hfind, hname, -⟩ := upsert_find hu hn
      have hingid : ing.id = iid := by
        rw [hfind] at hfn2
        simpa using hfn2
      have hing2 : ing = ⟨iid, n⟩ := by
        cases ing with
        | mk a b =>
          simp only [Ingredient.mk.injEq]
          exact ⟨hingid, hname⟩
      refine ⟨n, hn, ?_⟩
      rw [hsame n, hfind, hing2]
    · rintro ⟨n, hn, hfind2⟩
      rw [hsame n] at hfind2
      show iid ∈ ids
      rw [hids, List.mem_map]
      refine ⟨n, hn, ?_⟩
      show ((findIngredient st1 n).map Ingredient.id).getD 0 = iid
      rw [hfind2]
      rfl
  · have hfind : st2.recipes.find? (fun r2 => r2.id == i) =
        some ⟨r.id, p.name, ids⟩ := by
      rw [hst2]
      show (st1.recipes.map
          (fun r2 => if r2.id == i then (⟨r.id, p.name, ids⟩ : Recipe) else r2)).find?
        (fun r2 => r2.id == i) = some ⟨r.id, p.name, ids⟩
      apply find?_map_update
      · rw [hrec]
        exact hf
      · exact hbeq
    unfold RecipeView.get
    rw [hfind, hout]

/-- Witness for C5: rename the sample recipe to R2 and shrink its
ingredient set to a alone. -/
theorem c5_put_replaces_witness :
    ∃ r2 ∈ stP.recipes, r2.id = 1 ∧ r2.name = "R2" ∧
      (∀ iid, iid ∈ r2.ingredientIds ↔
        ∃ n ∈ ["a"], findIngredient stP n = some ⟨iid, n⟩) ∧
      (⟨1, "R2", [⟨1⟩]⟩ : RecipeOut) = RecipeSchema.dump r2 ∧
      RecipeView.get stP 1 = Resp.ok ⟨1, "R2", [⟨1⟩]⟩ :=
  c5_put_replaces stR stP 1 ⟨"R2", ["a"]⟩ ⟨1, "R2", [⟨1⟩]⟩ (by decide)

/-- C1: for every payload accepted by POST /recipes/ or PUT /recipes/{id},
each payload ingredient name already naming a stored ingredient is bound
to that stored row (the row survives and its id appears among the linked
ids of the response), and each name with no stored ingredient causes
exactly one new ingredient row named so, also linked; and no operation
ever creates two ingredients with the same name (name distinctness of the
ingredient table is preserved by every request). -/
theorem c1_ingredient_upsert :
    (∀ st st2 p out,
      (RecipesView.post st (Body.valid p) = (Resp.created out, st2) ∨
        ∃ i, RecipeView.put st i (Body.valid p) = (Resp.ok out, st2)) →
      ∀ n ∈ p.ingredients,
        (∀ ing, findIngredient st n = some ing →
          ing ∈ st2.ingredients ∧ IngredientOut.mk ing.id ∈ out.ingredients) ∧
        (findIngredient st n = none →
          st2.ingredients.countP (fun ing => ing.name == n) = 1 ∧
          ∃ ing, ing ∈ st2.ingredients ∧ ing.name = n ∧
            IngredientOut.mk ing.id ∈ out.ingredients)) ∧
    (∀ st op, (st.ingredients.map Ingredient.name).Nodup →
      ((apiStep st op).2.ingredients.map Ingredient.name).Nodup) := by
  constructor
  · rintro st st2 p out h n hn
    have hred : ∃ ids st1, upsertIngredients st p.ingredients = some (ids, st1) ∧
        st2.ingredients = st1.ingredients ∧
        out.ingredients = ids.map IngredientOut.mk := by
      rcases h with h | ⟨i, h⟩
      · obtain ⟨ids, st1, hu, -, hout, hst2⟩ := post_created h
        exact ⟨ids, st1, hu, by rw [hst2], by rw [hout]; rfl⟩
      · obtain ⟨r, ids, st1, -, hu, -, hout, hst2⟩ := put_ok h
        exact ⟨ids, st1, hu, by rw [hst2], by rw [hout]; rfl⟩
    obtain ⟨ids, st1, hu, hing2, houting⟩ := hred
    have hc := upsert_c1 hu hn
    constructor
    · intro ing hfound
      obtain ⟨hmem, hidin⟩ := hc.1 ing hfound
      refine ⟨by rw [hing2]; exact hmem, ?_⟩
      rw [houting, List.mem_map]
      exact ⟨ing.id, hidin, rfl⟩
    · intro hnone
      obtain ⟨hcount, ing, hmem, hname, hid⟩ := hc.2 hnone
      refine ⟨by rw [hing2]; exact hcount, ing, by rw [hing2]; exact hmem, hname, ?_⟩
      rw [houting, List.mem_map]
      exact ⟨ing.id, hid, rfl⟩
  · intro st op hnd
    exact step_ing_names_nodup st op hnd

/-- Witness for C1: posting the sample payload from the empty store creates
exactly one ingredient named a and links it. -/
theorem c1_ingredient_upsert_witness :
    stR.ingredients.countP (fun ing => ing.name == "a") = 1 ∧
    ∃ ing, ing ∈ stR.ingredients ∧ ing.name = "a" ∧
      IngredientOut.mk ing.id ∈ outR.ingredients :=
  (c1_ingredient_upsert.1 St.init stR payloadR outR (Or.inl (by decide)) "a"
    (by decide)).2 (by decide)
